import Mathlib

/-!
Verification of the CNF-normalization pipeline in `src/logic.rs`.

The Rust source defines a `Formula` tree and three rewrite passes:
`simplify1` (eliminate `Implies`/`Iff`), `simplify2` (push negation to the
leaves), `simplify3` (distribute `And` over `Or`), composed by `simplify`.
`simplify2` and `simplify3` call `unimplemented!()` on `Implies`/`Iff`
nodes; we model a pass that can panic as an `Option`-valued function, with
`none` standing for the panic.  The `iterations` product in `simplify3` is
a `usize` product in the source; it is modelled with the release-build
wrapping semantics, each multiplication reduced modulo `2 ^ 64` (a debug
build would panic on the same overflow instead).
-/

/-- The formula tree of `src/logic.rs` (`enum Formula`): atoms carry a
single character; `And`/`Or` take an arbitrary list of children. -/
inductive Formula where
  | Atom : Char → Formula
  | Not : Formula → Formula
  | Implies : Formula → Formula → Formula
  | Iff : Formula → Formula → Formula
  | And : List Formula → Formula
  | Or : List Formula → Formula

mutual
/-- Modelled from the spec: the repository has no `evaluate` function, but
§8's semantic-equivalence oracle speaks of `evaluate(f, assignment)`; this
is the standard truth-table semantics over an assignment of atoms to Bool,
with the spec's §3 convention empty `And` ≡ true, empty `Or` ≡ false. -/
def evaluate (a : Char → Bool) : Formula → Bool
  | .Atom c => a c
  | .Not n => !(evaluate a n)
  | .Implies l r => !(evaluate a l) || evaluate a r
  | .Iff l r => evaluate a l == evaluate a r
  | .And v => evaluateAll a v
  | .Or v => evaluateAny a v

/-- Conjunction of the values of a list of formulas (`true` on `[]`). -/
def evaluateAll (a : Char → Bool) : List Formula → Bool
  | [] => true
  | x :: xs => evaluate a x && evaluateAll a xs

/-- Disjunction of the values of a list of formulas (`false` on `[]`). -/
def evaluateAny (a : Char → Bool) : List Formula → Bool
  | [] => false
  | x :: xs => evaluate a x || evaluateAny a xs
end

mutual
/-- Translation of `fn clone` of the source: an explicit structural deep copy. -/
def clone : Formula → Formula
  | .Atom c => .Atom c
  | .Not n => .Not (clone n)
  | .Implies l r => .Implies (clone l) (clone r)
  | .Iff l r => .Iff (clone l) (clone r)
  | .And v => .And (cloneList v)
  | .Or v => .Or (cloneList v)

/-- The function `clone` mapped over a child list. -/
def cloneList : List Formula → List Formula
  | [] => []
  | x :: xs => clone x :: cloneList xs
end

mutual
/-- Pass 1 (`fn simplify1`): eliminate `Implies` and `Iff`, bottom-up. -/
def simplify1 : Formula → Formula
  | .Atom c => .Atom c
  | .Not n => .Not (simplify1 n)
  | .Implies l r => .Or [.Not (simplify1 l), simplify1 r]
  | .Iff l r =>
      let ls := simplify1 l
      let rs := simplify1 r
      .And [.Or [.Not (clone ls), clone rs], .Or [.Not rs, ls]]
  | .And v => .And (simplify1List v)
  | .Or v => .Or (simplify1List v)

/-- The function `simplify1` mapped over a child list. -/
def simplify1List : List Formula → List Formula
  | [] => []
  | x :: xs => simplify1 x :: simplify1List xs
end

mutual
/-- Pass 2 (`fn simplify2`): remove double negation and push `Not` through
`And`/`Or` by De Morgan, re-simplifying the freshly built negations.  The
source's arms are translated in order; the `g @ Formula::Not(_) => g`
catch-all keeps `Not` over `Atom`, `Implies` or `Iff` unchanged, and the
`unimplemented!()` arm for bare `Implies`/`Iff` is modelled as `none`. -/
def simplify2 : Formula → Option Formula
  | .Atom c => some (.Atom c)
  | .Not (.Not nn) => simplify2 nn
  | .Not (.And v) => (simplify2NotList v).map Formula.Or
  | .Not (.Or v) => (simplify2NotList v).map Formula.And
  | .Not g => some (.Not g)
  | .And v => (simplify2List v).map Formula.And
  | .Or v => (simplify2List v).map Formula.Or
  | .Implies _ _ => none
  | .Iff _ _ => none
termination_by f => sizeOf f
decreasing_by all_goals (simp_wf <;> omega)

/-- The child-list traversal of `simplify2`'s De Morgan arms:
`v.into_iter().map(|x| simplify2(Not(x)))`, propagating a panic. -/
def simplify2NotList : List Formula → Option (List Formula)
  | [] => some []
  | x :: xs =>
      match simplify2 (.Not x), simplify2NotList xs with
      | some y, some ys => some (y :: ys)
      | _, _ => none
termination_by v => 1 + sizeOf v
decreasing_by all_goals (simp_wf <;> omega)

/-- The child-list traversal of `simplify2`'s `And`/`Or` arms. -/
def simplify2List : List Formula → Option (List Formula)
  | [] => some []
  | x :: xs =>
      match simplify2 x, simplify2List xs with
      | some y, some ys => some (y :: ys)
      | _, _ => none
termination_by v => sizeOf v
decreasing_by all_goals (simp_wf <;> omega)
end

/-- The partition loop in `simplify3`'s `And` arm: separate the (already
recursively simplified) children into non-`Or` `singles` and the child
lists of `Or` nodes (`multiples`), preserving order. -/
def partitionSM : List Formula → List Formula × List (List Formula)
  | [] => ([], [])
  | .Or ov :: rest => ((partitionSM rest).1, ov :: (partitionSM rest).2)
  | g :: rest => (g :: (partitionSM rest).1, (partitionSM rest).2)

/-- The number of values of `usize` on the 64-bit target.  The clause
count in `simplify3` is a `usize` product; in a release build each
multiplication wraps modulo this constant (a debug build would panic on
overflow instead). -/
def usizeSize : Nat := 2 ^ 64

/-- The inner `for ov in &multiples` loop of `simplify3`: starting from
`offset = i`, pick index `offset % ov.len()` from each choice set and
divide `offset` by that length.  In the source the picks run only for
`i < iterations`, where every choice set is non-empty and every index is
in bounds, so the `getD` default is never consulted there. -/
def picksFrom (offset : Nat) : List (List Formula) → List Formula
  | [] => []
  | ov :: rest =>
      ov.getD (offset % ov.length) (Formula.Atom 'Z') :: picksFrom (offset / ov.length) rest

mutual
/-- Pass 3 (`fn simplify3`): distribute `And` over `Or`.  Non-`And` nodes
are returned unchanged (`Or` children are not recursed into); an `And`
simplifies its children, partitions them into singles and multiples, and
emits one conjunct per mixed-radix combination of picks, wrapped in `Or`.
The `iterations` count is the `usize` product of the choice-set sizes
(`fold(1, |acc, x| acc * x.len())`), each multiplication wrapping modulo
`2 ^ 64` as in a release build.  `unimplemented!()` on `Implies`/`Iff` is
modelled as `none`. -/
def simplify3 : Formula → Option Formula
  | .Atom c => some (.Atom c)
  | .Not g => some (.Not g)
  | .Or v => some (.Or v)
  | .Implies _ _ => none
  | .Iff _ _ => none
  | .And v =>
      match simplify3List v with
      | none => none
      | some els =>
          let (singles, multiples) := partitionSM els
          let iterations := multiples.foldl (fun acc x => (acc * x.length) % usizeSize) 1
          some (.Or ((List.range iterations).map
            (fun i => Formula.And (singles ++ picksFrom i multiples))))

/-- The child-list traversal `v.into_iter().map(|x| simplify3(x))`,
propagating a panic. -/
def simplify3List : List Formula → Option (List Formula)
  | [] => some []
  | x :: xs =>
      match simplify3 x, simplify3List xs with
      | some y, some ys => some (y :: ys)
      | _, _ => none
end

/-- Translation of `fn simplify`: the full pipeline
`simplify3(simplify2(simplify1(f)))`, propagating a panic of either later
pass. -/
def simplify (f : Formula) : Option Formula :=
  (simplify2 (simplify1 f)).bind simplify3

mutual
/-- No `Implies` or `Iff` node occurs anywhere in the tree. -/
def noII : Formula → Bool
  | .Atom _ => true
  | .Not n => noII n
  | .Implies _ _ => false
  | .Iff _ _ => false
  | .And v => noIIList v
  | .Or v => noIIList v

/-- The predicate `noII` over a child list. -/
def noIIList : List Formula → Bool
  | [] => true
  | x :: xs => noII x && noIIList xs
end

mutual
/-- Every `Not` node in the tree directly wraps an `Atom`. -/
def notsAtomic : Formula → Bool
  | .Atom _ => true
  | .Not (.Atom _) => true
  | .Not _ => false
  | .Implies l r => notsAtomic l && notsAtomic r
  | .Iff l r => notsAtomic l && notsAtomic r
  | .And v => notsAtomicList v
  | .Or v => notsAtomicList v

/-- The predicate `notsAtomic` over a child list. -/
def notsAtomicList : List Formula → Bool
  | [] => true
  | x :: xs => notsAtomic x && notsAtomicList xs
end

mutual
/-- Negation normal form: built from `Atom`, `Not(Atom)`, `And`, `Or`
only — no `Implies`/`Iff`, negation only at the leaves. -/
def isNNF : Formula → Bool
  | .Atom _ => true
  | .Not (.Atom _) => true
  | .Not _ => false
  | .Implies _ _ => false
  | .Iff _ _ => false
  | .And v => isNNFList v
  | .Or v => isNNFList v

/-- The predicate `isNNF` over a child list. -/
def isNNFList : List Formula → Bool
  | [] => true
  | x :: xs => isNNF x && isNNFList xs
end

/-- A literal: an `Atom` or the negation of an `Atom`. -/
def isLit : Formula → Bool
  | .Atom _ => true
  | .Not (.Atom _) => true
  | _ => false

/-- A clause: an `Or` whose children are all literals. -/
def isClause : Formula → Bool
  | .Or ls => ls.all isLit
  | _ => false

/-- The CNF top-shape condition of the spec, read literally: if the root
is an `And`, each child is a literal or an `Or` of literals; any other
root satisfies the condition vacuously. -/
def cnfTopShape : Formula → Bool
  | .And v => v.all (fun c => isLit c || isClause c)
  | _ => true

/-- The root is an `Or` node. -/
def isOrNode : Formula → Bool
  | .Or _ => true
  | _ => false

/-- The root is none of `And`, `Implies`, `Iff` — exactly the shapes that
`simplify3` passes through unchanged. -/
def rootPassThrough : Formula → Bool
  | .And _ => false
  | .Implies _ _ => false
  | .Iff _ _ => false
  | _ => true

/-- The mixed-radix pick the spec describes for Pass 3's combination
order: clause `i` takes, from the `j`-th multiple, the child at index
`(i / (n_0 * ... * n_(j-1))) % n_j`, so the first multiple varies
fastest. -/
def radixPick (ms : List (List Formula)) (i j : Nat) : Formula :=
  (ms.getD j []).getD ((i / ((ms.take j).map List.length).prod) % (ms.getD j []).length)
    (Formula.Atom 'Z')

mutual
/-- The distribution of a formula stays below the `usize` limit: at every
`And` node that `simplify3` recurses into, the true (unbounded) product of
the multiples' lengths is `< 2 ^ 64`, so the wrapping product equals it.
`Or`/`Not` children are not entered, mirroring `simplify3`'s recursion. -/
def wrapFree : Formula → Bool
  | .Atom _ => true
  | .Not _ => true
  | .Implies _ _ => true
  | .Iff _ _ => true
  | .Or _ => true
  | .And v =>
      wrapFreeList v &&
        (match simplify3List v with
         | none => true
         | some els => decide (((partitionSM els).2.map List.length).prod < usizeSize))

/-- The predicate `wrapFree` over a child list. -/
def wrapFreeList : List Formula → Bool
  | [] => true
  | x :: xs => wrapFree x && wrapFreeList xs
end

/-- An `And` of 64 binary `Or`s: the smallest natural family on which the
`usize` clause-count product overflows (`2 ^ 64` combinations). -/
def overflowSets : List (List Formula) :=
  List.replicate 64 [Formula.Atom 'P', Formula.Atom 'Q']

/-- Structural induction principle for `Formula` with a member-wise
hypothesis for `And`/`Or` children. -/
def Formula.inductionOn {P : Formula → Prop}
    (hatom : ∀ c, P (.Atom c))
    (hnot : ∀ n, P n → P (.Not n))
    (himp : ∀ l r, P l → P r → P (.Implies l r))
    (hiff : ∀ l r, P l → P r → P (.Iff l r))
    (hand : ∀ v, (∀ x ∈ v, P x) → P (.And v))
    (hor : ∀ v, (∀ x ∈ v, P x) → P (.Or v))
    (f : Formula) : P f :=
  match f with
  | .Atom c => hatom c
  | .Not n => hnot n (Formula.inductionOn hatom hnot himp hiff hand hor n)
  | .Implies l r =>
      himp l r (Formula.inductionOn hatom hnot himp hiff hand hor l)
        (Formula.inductionOn hatom hnot himp hiff hand hor r)
  | .Iff l r =>
      hiff l r (Formula.inductionOn hatom hnot himp hiff hand hor l)
        (Formula.inductionOn hatom hnot himp hiff hand hor r)
  | .And v => hand v (fun x hx => Formula.inductionOn hatom hnot himp hiff hand hor x)
  | .Or v => hor v (fun x hx => Formula.inductionOn hatom hnot himp hiff hand hor x)
termination_by sizeOf f
decreasing_by all_goals (simp_wf <;> first
  | omega
  | (have hs := List.sizeOf_lt_of_mem hx; omega))

/-! ### Basic lemmas about the list helpers -/

theorem evaluateAll_iff (a : Char → Bool) (l : List Formula) :
    evaluateAll a l = true ↔ ∀ x ∈ l, evaluate a x = true := by
  induction l with
  | nil => simp [evaluateAll]
  | cons x xs ih => simp [evaluateAll, ih]

theorem evaluateAny_iff (a : Char → Bool) (l : List Formula) :
    evaluateAny a l = true ↔ ∃ x ∈ l, evaluate a x = true := by
  induction l with
  | nil => simp [evaluateAny]
  | cons x xs ih => simp [evaluateAny, ih]

theorem evaluateAll_append (a : Char → Bool) (s t : List Formula) :
    evaluateAll a (s ++ t) = (evaluateAll a s && evaluateAll a t) := by
  induction s with
  | nil => simp [evaluateAll]
  | cons x xs ih => simp [evaluateAll, ih, Bool.and_assoc]

theorem isNNFList_iff (l : List Formula) :
    isNNFList l = true ↔ ∀ x ∈ l, isNNF x = true := by
  induction l with
  | nil => simp [isNNFList]
  | cons x xs ih => simp [isNNFList, ih]

theorem noIIList_iff (l : List Formula) :
    noIIList l = true ↔ ∀ x ∈ l, noII x = true := by
  induction l with
  | nil => simp [noIIList]
  | cons x xs ih => simp [noIIList, ih]

theorem notsAtomicList_iff (l : List Formula) :
    notsAtomicList l = true ↔ ∀ x ∈ l, notsAtomic x = true := by
  induction l with
  | nil => simp [notsAtomicList]
  | cons x xs ih => simp [notsAtomicList, ih]

theorem cloneList_eq_of (v : List Formula) (h : ∀ x ∈ v, clone x = x) :
    cloneList v = v := by
  induction v with
  | nil => simp [cloneList]
  | cons x xs ih =>
      simp only [cloneList]
      rw [h x (by simp), ih (fun y hy => h y (by simp [hy]))]

theorem clone_eq (f : Formula) : clone f = f := by
  induction f using Formula.inductionOn with
  | hatom c => simp [clone]
  | hnot n ih => simp [clone, ih]
  | himp l r ihl ihr => simp [clone, ihl, ihr]
  | hiff l r ihl ihr => simp [clone, ihl, ihr]
  | hand v ih => simp [clone, cloneList_eq_of v ih]
  | hor v ih => simp [clone, cloneList_eq_of v ih]

/-! ### Pass 1 lemmas -/

theorem simplify1List_eval_of (a : Char → Bool) (v : List Formula)
    (h : ∀ x ∈ v, evaluate a (simplify1 x) = evaluate a x) :
    evaluateAll a (simplify1List v) = evaluateAll a v ∧
    evaluateAny a (simplify1List v) = evaluateAny a v := by
  induction v with
  | nil => simp [simplify1List]
  | cons x xs ih =>
      have hx := h x (by simp)
      have ihs := ih (fun y hy => h y (by simp [hy]))
      simp [simplify1List, evaluateAll, evaluateAny, hx, ihs.1, ihs.2]

theorem simplify1_eval (a : Char → Bool) (f : Formula) :
    evaluate a (simplify1 f) = evaluate a f := by
  induction f using Formula.inductionOn with
  | hatom c => simp [simplify1]
  | hnot n ih => simp [simplify1, evaluate, ih]
  | himp l r ihl ihr =>
      simp [simplify1, evaluate, evaluateAny, ihl, ihr]
  | hiff l r ihl ihr =>
      simp only [simplify1, clone_eq, evaluate, evaluateAll, evaluateAny]
      rw [ihl, ihr]
      cases evaluate a l <;> cases evaluate a r <;> rfl
  | hand v ih => simp [simplify1, evaluate, (simplify1List_eval_of a v ih).1]
  | hor v ih => simp [simplify1, evaluate, (simplify1List_eval_of a v ih).2]

theorem noII_clone (f : Formula) : noII (clone f) = noII f := by
  rw [clone_eq]

theorem simplify1List_noII_of (v : List Formula)
    (h : ∀ x ∈ v, noII (simplify1 x) = true) :
    noIIList (simplify1List v) = true := by
  induction v with
  | nil => simp [simplify1List, noIIList]
  | cons x xs ih =>
      simp only [simplify1List, noIIList, Bool.and_eq_true]
      exact ⟨h x (by simp), ih (fun y hy => h y (by simp [hy]))⟩

theorem simplify1_noII (f : Formula) : noII (simplify1 f) = true := by
  induction f using Formula.inductionOn with
  | hatom c => simp [simplify1, noII]
  | hnot n ih => simp [simplify1, noII, ih]
  | himp l r ihl ihr => simp [simplify1, noII, noIIList, ihl, ihr]
  | hiff l r ihl ihr => simp [simplify1, noII, noIIList, clone_eq, ihl, ihr]
  | hand v ih => simp [simplify1, noII, simplify1List_noII_of v ih]
  | hor v ih => simp [simplify1, noII, simplify1List_noII_of v ih]

theorem simplify1List_id_of (v : List Formula)
    (h : ∀ x ∈ v, noII x = true → simplify1 x = x) (hv : noIIList v = true) :
    simplify1List v = v := by
  induction v with
  | nil => simp [simplify1List]
  | cons x xs ih =>
      simp only [noIIList, Bool.and_eq_true] at hv
      simp only [simplify1List]
      rw [h x (by simp) hv.1, ih (fun y hy => h y (by simp [hy])) hv.2]

theorem simplify1_id_of_noII (f : Formula) (h : noII f = true) : simplify1 f = f := by
  induction f using Formula.inductionOn with
  | hatom c => simp [simplify1]
  | hnot n ih => simp only [noII] at h; simp [simplify1, ih h]
  | himp l r ihl ihr => simp [noII] at h
  | hiff l r ihl ihr => simp [noII] at h
  | hand v ih => simp only [noII] at h; simp [simplify1, simplify1List_id_of v ih h]
  | hor v ih => simp only [noII] at h; simp [simplify1, simplify1List_id_of v ih h]

/-! ### Pass 2 lemmas -/

theorem simplify2List_of (v : List Formula)
    (h : ∀ x ∈ v, noII x = true → ∃ g, simplify2 x = some g ∧ isNNF g = true ∧
      ∀ a, evaluate a g = evaluate a x)
    (hv : noIIList v = true) :
    ∃ gs, simplify2List v = some gs ∧ isNNFList gs = true ∧
      (∀ a, evaluateAll a gs = evaluateAll a v) ∧
      (∀ a, evaluateAny a gs = evaluateAny a v) := by
  induction v with
  | nil =>
      refine ⟨[], ?_, ?_, ?_, ?_⟩ <;> simp [simplify2List, isNNFList]
  | cons x xs ih =>
      simp only [noIIList, Bool.and_eq_true] at hv
      obtain ⟨g, hg, hgn, hge⟩ := h x (by simp) hv.1
      obtain ⟨gs, hgs, hgsn, hgse1, hgse2⟩ :=
        ih (fun y hy => h y (by simp [hy])) hv.2
      refine ⟨g :: gs, ?_, ?_, ?_, ?_⟩
      · simp [simplify2List, hg, hgs]
      · simp [isNNFList, hgn, hgsn]
      · intro a; simp [evaluateAll, hge, hgse1]
      · intro a; simp [evaluateAny, hge, hgse2]

theorem simplify2NotList_of (v : List Formula)
    (h : ∀ x ∈ v, noII x = true → ∃ g, simplify2 (.Not x) = some g ∧ isNNF g = true ∧
      ∀ a, evaluate a g = !(evaluate a x))
    (hv : noIIList v = true) :
    ∃ gs, simplify2NotList v = some gs ∧ isNNFList gs = true ∧
      (∀ a, evaluateAny a gs = !(evaluateAll a v)) ∧
      (∀ a, evaluateAll a gs = !(evaluateAny a v)) := by
  induction v with
  | nil =>
      refine ⟨[], ?_, ?_, ?_, ?_⟩ <;> simp [simplify2NotList, isNNFList, evaluateAll, evaluateAny]
  | cons x xs ih =>
      simp only [noIIList, Bool.and_eq_true] at hv
      obtain ⟨g, hg, hgn, hge⟩ := h x (by simp) hv.1
      obtain ⟨gs, hgs, hgsn, hgse1, hgse2⟩ :=
        ih (fun y hy => h y (by simp [hy])) hv.2
      refine ⟨g :: gs, ?_, ?_, ?_, ?_⟩
      · simp [simplify2NotList, hg, hgs]
      · simp [isNNFList, hgn, hgsn]
      · intro a; simp [evaluateAll, evaluateAny, hge, hgse1]
      · intro a; simp [evaluateAll, evaluateAny, hge, hgse2]

theorem simplify2_main (f : Formula) :
    (noII f = true → ∃ g, simplify2 f = some g ∧ isNNF g = true ∧
      ∀ a, evaluate a g = evaluate a f) ∧
    (noII f = true → ∃ g, simplify2 (.Not f) = some g ∧ isNNF g = true ∧
      ∀ a, evaluate a g = !(evaluate a f)) := by
  induction f using Formula.inductionOn with
  | hatom c =>
      constructor
      · intro _
        exact ⟨.Atom c, by simp [simplify2], by simp [isNNF], fun a => rfl⟩
      · intro _
        refine ⟨.Not (.Atom c), by simp [simplify2], by simp [isNNF], fun a => ?_⟩
        simp [evaluate]
  | hnot n ih =>
      constructor
      · intro h
        simp only [noII] at h
        exact ih.2 h
      · intro h
        simp only [noII] at h
        obtain ⟨g, hg, hgn, hge⟩ := ih.1 h
        refine ⟨g, ?_, hgn, fun a => ?_⟩
        · simp only [simplify2]
          exact hg
        · simp [hge, evaluate]
  | himp l r ihl ihr => simp [noII]
  | hiff l r ihl ihr => simp [noII]
  | hand v ih =>
      constructor
      · intro h
        simp only [noII] at h
        obtain ⟨gs, hgs, hgsn, hgse1, _⟩ :=
          simplify2List_of v (fun x hx => (ih x hx).1) h
        refine ⟨.And gs, ?_, ?_, fun a => ?_⟩
        · simp [simplify2, hgs]
        · simp [isNNF, hgsn]
        · simp [evaluate, hgse1]
      · intro h
        simp only [noII] at h
        obtain ⟨gs, hgs, hgsn, hgse1, _⟩ :=
          simplify2NotList_of v (fun x hx => (ih x hx).2) h
        refine ⟨.Or gs, ?_, ?_, fun a => ?_⟩
        · simp [simplify2, hgs]
        · simp [isNNF, hgsn]
        · simp [evaluate, hgse1]
  | hor v ih =>
      constructor
      · intro h
        simp only [noII] at h
        obtain ⟨gs, hgs, hgsn, _, hgse2⟩ :=
          simplify2List_of v (fun x hx => (ih x hx).1) h
        refine ⟨.Or gs, ?_, ?_, fun a => ?_⟩
        · simp [simplify2, hgs]
        · simp [isNNF, hgsn]
        · simp [evaluate, hgse2]
      · intro h
        simp only [noII] at h
        obtain ⟨gs, hgs, hgsn, _, hgse2⟩ :=
          simplify2NotList_of v (fun x hx => (ih x hx).2) h
        refine ⟨.And gs, ?_, ?_, fun a => ?_⟩
        · simp [simplify2, hgs]
        · simp [isNNF, hgsn]
        · simp [evaluate, hgse2]

theorem simplify2List_id_of (v : List Formula)
    (h : ∀ x ∈ v, isNNF x = true → simplify2 x = some x)
    (hv : isNNFList v = true) :
    simplify2List v = some v := by
  induction v with
  | nil => simp [simplify2List]
  | cons x xs ih =>
      simp only [isNNFList, Bool.and_eq_true] at hv
      simp [simplify2List, h x (by simp) hv.1,
        ih (fun y hy => h y (by simp [hy])) hv.2]

theorem simplify2_id_of_isNNF (f : Formula) (h : isNNF f = true) :
    simplify2 f = some f := by
  induction f using Formula.inductionOn with
  | hatom c => simp [simplify2]
  | hnot n ih =>
      cases n with
      | Atom c => simp [simplify2]
      | Not m => simp [isNNF] at h
      | Implies l r => simp [isNNF] at h
      | Iff l r => simp [isNNF] at h
      | And v => simp [isNNF] at h
      | Or v => simp [isNNF] at h
  | himp l r ihl ihr => simp [isNNF] at h
  | hiff l r ihl ihr => simp [isNNF] at h
  | hand v ih =>
      simp only [isNNF] at h
      simp [simplify2, simplify2List_id_of v ih h]
  | hor v ih =>
      simp only [isNNF] at h
      simp [simplify2, simplify2List_id_of v ih h]

theorem noII_of_isNNF (f : Formula) (h : isNNF f = true) : noII f = true := by
  induction f using Formula.inductionOn with
  | hatom c => simp [noII]
  | hnot n ih =>
      cases n with
      | Atom c => simp [noII, noIIList]
      | Not m => simp [isNNF] at h
      | Implies l r => simp [isNNF] at h
      | Iff l r => simp [isNNF] at h
      | And v => simp [isNNF] at h
      | Or v => simp [isNNF] at h
  | himp l r ihl ihr => simp [isNNF] at h
  | hiff l r ihl ihr => simp [isNNF] at h
  | hand v ih =>
      simp only [isNNF] at h
      simp only [noII, noIIList_iff]
      intro x hx
      exact ih x hx ((isNNFList_iff v).1 h x hx)
  | hor v ih =>
      simp only [isNNF] at h
      simp only [noII, noIIList_iff]
      intro x hx
      exact ih x hx ((isNNFList_iff v).1 h x hx)

theorem notsAtomic_of_isNNF (f : Formula) (h : isNNF f = true) :
    notsAtomic f = true := by
  induction f using Formula.inductionOn with
  | hatom c => simp [notsAtomic]
  | hnot n ih =>
      cases n with
      | Atom c => simp [notsAtomic]
      | Not m => simp [isNNF] at h
      | Implies l r => simp [isNNF] at h
      | Iff l r => simp [isNNF] at h
      | And v => simp [isNNF] at h
      | Or v => simp [isNNF] at h
  | himp l r ihl ihr => simp [isNNF] at h
  | hiff l r ihl ihr => simp [isNNF] at h
  | hand v ih =>
      simp only [isNNF] at h
      simp only [notsAtomic, notsAtomicList_iff]
      intro x hx
      exact ih x hx ((isNNFList_iff v).1 h x hx)
  | hor v ih =>
      simp only [isNNF] at h
      simp only [notsAtomic, notsAtomicList_iff]
      intro x hx
      exact ih x hx ((isNNFList_iff v).1 h x hx)

/-! ### Pass 3 lemmas -/

theorem bool_eq_of_iff {x y : Bool} (h : x = true ↔ y = true) : x = y := by
  cases x <;> cases y <;> simp_all

theorem foldl_wrap (ms : List (List Formula)) (acc : Nat) :
    ms.foldl (fun a x => (a * x.length) % usizeSize) acc % usizeSize =
      (acc * (ms.map List.length).prod) % usizeSize := by
  induction ms generalizing acc with
  | nil => simp
  | cons m rest ih =>
      simp only [List.foldl_cons, List.map_cons, List.prod_cons]
      rw [ih, Nat.mod_mul_mod, Nat.mul_assoc]

theorem foldl_wrap_lt (m : List Formula) (ms : List (List Formula)) (acc : Nat) :
    (m :: ms).foldl (fun a x => (a * x.length) % usizeSize) acc < usizeSize := by
  induction ms generalizing m acc with
  | nil =>
      rw [List.foldl_cons, List.foldl_nil]
      exact Nat.mod_lt _ (by norm_num [usizeSize])
  | cons m2 rest ih =>
      rw [List.foldl_cons]
      exact ih m2 ((acc * m.length) % usizeSize)

theorem foldl_wrap_one (ms : List (List Formula)) :
    ms.foldl (fun a x => (a * x.length) % usizeSize) 1 =
      (ms.map List.length).prod % usizeSize := by
  cases ms with
  | nil =>
      show (1 : Nat) = 1 % usizeSize
      rw [Nat.mod_eq_of_lt (by norm_num [usizeSize])]
  | cons m rest =>
      have h1 := foldl_wrap (m :: rest) 1
      rw [Nat.mod_eq_of_lt (foldl_wrap_lt m rest 1)] at h1
      simpa using h1

theorem picksFrom_length (ms : List (List Formula)) (i : Nat) :
    (picksFrom i ms).length = ms.length := by
  induction ms generalizing i with
  | nil => simp [picksFrom]
  | cons m rest ih => simp [picksFrom, ih]

theorem getD_mem_of_lt (l : List Formula) (i : Nat) (d : Formula)
    (h : i < l.length) : l.getD i d ∈ l := by
  induction l generalizing i with
  | nil => simp at h
  | cons x xs ih =>
      cases i with
      | zero => simp
      | succ n =>
          simp only [List.getD_cons_succ]
          exact List.mem_cons_of_mem x (ih n (by simpa using h))

theorem getD_cases (l : List Formula) (i : Nat) (d : Formula) :
    l.getD i d ∈ l ∨ l.getD i d = d := by
  by_cases h : i < l.length
  · exact Or.inl (getD_mem_of_lt l i d h)
  · right
    induction l generalizing i with
    | nil => simp [List.getD]
    | cons x xs ih =>
        cases i with
        | zero => simp at h
        | succ n =>
            simp only [List.getD_cons_succ]
            exact ih n (by simpa using h)

theorem exists_getD_of_mem (l : List Formula) (x d : Formula) (h : x ∈ l) :
    ∃ j, j < l.length ∧ l.getD j d = x := by
  induction l with
  | nil => simp at h
  | cons y ys ih =>
      rcases List.mem_cons.1 h with rfl | h
      · exact ⟨0, by simp, by simp⟩
      · obtain ⟨j, hj, hjd⟩ := ih h
        exact ⟨j + 1, by simpa using hj, by simpa using hjd⟩

theorem picks_cartesian (a : Char → Bool) (ms : List (List Formula)) :
    (∃ i, i < (ms.map List.length).prod ∧ evaluateAll a (picksFrom i ms) = true) ↔
    (∀ m ∈ ms, evaluateAny a m = true) := by
  induction ms with
  | nil =>
      constructor
      · intro _ m hm; simp at hm
      · intro _; exact ⟨0, by simp, by simp [picksFrom, evaluateAll]⟩
  | cons m rest ih =>
      constructor
      · rintro ⟨i, hi, hall⟩
        simp only [List.map_cons, List.prod_cons] at hi
        have hm : 0 < m.length := by
          rcases Nat.eq_zero_or_pos m.length with h0 | h0
          · rw [h0] at hi; simp at hi
          · exact h0
        simp only [picksFrom, evaluateAll, Bool.and_eq_true] at hall
        intro x hx
        rcases List.mem_cons.1 hx with rfl | hx
        · rw [evaluateAny_iff]
          exact ⟨_, getD_mem_of_lt _ _ _ (Nat.mod_lt i hm), hall.1⟩
        · have hdiv : i / m.length < (rest.map List.length).prod := by
            rw [Nat.div_lt_iff_lt_mul hm, Nat.mul_comm]
            exact hi
          exact ih.1 ⟨i / m.length, hdiv, hall.2⟩ x hx
      · intro hany
        obtain ⟨x, hxm, hx⟩ := (evaluateAny_iff a m).1 (hany m (by simp))
        obtain ⟨j, hj, hjd⟩ := exists_getD_of_mem m x (Formula.Atom 'Z') hxm
        obtain ⟨k, hk, hkall⟩ := ih.2 (fun y hy => hany y (by simp [hy]))
        have hlen : 0 < m.length := lt_of_le_of_lt (Nat.zero_le j) hj
        refine ⟨j + m.length * k, ?_, ?_⟩
        · simp only [List.map_cons, List.prod_cons]
          have h2 : j + m.length * k < m.length * (k + 1) := by
            rw [Nat.mul_succ]; omega
          exact lt_of_lt_of_le h2 (Nat.mul_le_mul_left _ hk)
        · simp only [picksFrom, evaluateAll, Bool.and_eq_true]
          constructor
          · rw [Nat.add_mul_mod_self_left, Nat.mod_eq_of_lt hj, hjd]
            exact hx
          · rw [Nat.add_mul_div_left _ _ hlen, Nat.div_eq_of_lt hj]
            simpa using hkall

theorem partitionSM_eval (a : Char → Bool) (els : List Formula) :
    evaluateAll a els =
      (evaluateAll a (partitionSM els).1 &&
        (partitionSM els).2.all (fun m => evaluateAny a m)) := by
  induction els with
  | nil => simp [partitionSM, evaluateAll]
  | cons el rest ih =>
      cases el <;>
        simp [partitionSM, evaluateAll, evaluate, ih, Bool.and_assoc,
          Bool.and_left_comm]

theorem partitionSM_isNNF (els : List Formula) (h : isNNFList els = true) :
    isNNFList (partitionSM els).1 = true ∧
      ∀ m ∈ (partitionSM els).2, isNNFList m = true := by
  induction els with
  | nil => simp [partitionSM, isNNFList]
  | cons el rest ih =>
      simp only [isNNFList, Bool.and_eq_true] at h
      have ihr := ih h.2
      cases el with
      | Or ov =>
          refine ⟨ihr.1, ?_⟩
          intro m hm
          simp only [partitionSM, List.mem_cons] at hm
          rcases hm with rfl | hm
          · simpa [isNNF] using h.1
          · exact ihr.2 m hm
      | Atom c => exact ⟨by simp [partitionSM, isNNFList, h.1, ihr.1], ihr.2⟩
      | Not n => exact ⟨by simp [partitionSM, isNNFList, h.1, ihr.1], ihr.2⟩
      | Implies l r => simp [isNNF] at h
      | Iff l r => simp [isNNF] at h
      | And v => exact ⟨by simp [partitionSM, isNNFList, h.1, ihr.1], ihr.2⟩

theorem picksFrom_isNNF (ms : List (List Formula)) (i : Nat)
    (h : ∀ m ∈ ms, isNNFList m = true) :
    isNNFList (picksFrom i ms) = true := by
  induction ms generalizing i with
  | nil => simp [picksFrom, isNNFList]
  | cons m rest ih =>
      simp only [picksFrom, isNNFList, Bool.and_eq_true]
      refine ⟨?_, ih (i / m.length) (fun y hy => h y (by simp [hy]))⟩
      rcases getD_cases m (i % m.length) (Formula.Atom 'Z') with hmem | hdef
      · exact (isNNFList_iff m).1 (h m (by simp)) _ hmem
      · rw [hdef]; simp [isNNF]

theorem simplify3List_of (v : List Formula)
    (h : ∀ x ∈ v, isNNF x = true → ∃ g, simplify3 x = some g ∧ isNNF g = true ∧
      (wrapFree x = true → ∀ a, evaluate a g = evaluate a x))
    (hv : isNNFList v = true) :
    ∃ els, simplify3List v = some els ∧ isNNFList els = true ∧
      (wrapFreeList v = true → ∀ a, evaluateAll a els = evaluateAll a v) := by
  induction v with
  | nil => exact ⟨[], by simp [simplify3List], by simp [isNNFList], by simp⟩
  | cons x xs ih =>
      simp only [isNNFList, Bool.and_eq_true] at hv
      obtain ⟨g, hg, hgn, hge⟩ := h x (by simp) hv.1
      obtain ⟨els, hels, helsn, helse⟩ := ih (fun y hy => h y (by simp [hy])) hv.2
      refine ⟨g :: els, ?_, ?_, fun hw a => ?_⟩
      · simp [simplify3List, hg, hels]
      · simp [isNNFList, hgn, helsn]
      · simp only [wrapFreeList, Bool.and_eq_true] at hw
        simp [evaluateAll, hge hw.1, helse hw.2]

theorem simplify3_main (f : Formula) (h : isNNF f = true) :
    ∃ g, simplify3 f = some g ∧ isNNF g = true ∧
      (wrapFree f = true → ∀ a, evaluate a g = evaluate a f) := by
  induction f using Formula.inductionOn with
  | hatom c => exact ⟨.Atom c, by simp [simplify3], h, fun _ a => rfl⟩
  | hnot n ih => exact ⟨.Not n, by simp [simplify3], h, fun _ a => rfl⟩
  | himp l r ihl ihr => simp [isNNF] at h
  | hiff l r ihl ihr => simp [isNNF] at h
  | hor v ih => exact ⟨.Or v, by simp [simplify3], h, fun _ a => rfl⟩
  | hand v ih =>
      simp only [isNNF] at h
      obtain ⟨els, hels, helsn, helse⟩ := simplify3List_of v ih h
      have hpart := partitionSM_isNNF els helsn
      refine ⟨.Or ((List.range ((partitionSM els).2.foldl
          (fun acc x => (acc * x.length) % usizeSize) 1)).map
          (fun i => Formula.And ((partitionSM els).1 ++ picksFrom i (partitionSM els).2))),
        ?_, ?_, fun hw a => ?_⟩
      · simp [simplify3, hels]
      · simp only [isNNF]
        rw [isNNFList_iff]
        intro x hx
        simp only [List.mem_map] at hx
        obtain ⟨i, _, rfl⟩ := hx
        simp only [isNNF]
        rw [isNNFList_iff]
        intro y hy
        rcases List.mem_append.1 hy with hy | hy
        · exact (isNNFList_iff _).1 hpart.1 y hy
        · exact (isNNFList_iff _).1 (picksFrom_isNNF _ i hpart.2) y hy
      · simp only [wrapFree, hels, Bool.and_eq_true, decide_eq_true_eq] at hw
        simp only [evaluate]
        rw [← helse hw.1 a, partitionSM_eval a els]
        rw [foldl_wrap_one, Nat.mod_eq_of_lt hw.2]
        apply bool_eq_of_iff
        rw [evaluateAny_iff, Bool.and_eq_true, List.all_eq_true]
        constructor
        · rintro ⟨x, hx, hxe⟩
          simp only [List.mem_map, List.mem_range] at hx
          obtain ⟨i, hi, rfl⟩ := hx
          simp only [evaluate] at hxe
          rw [evaluateAll_append, Bool.and_eq_true] at hxe
          exact ⟨hxe.1, (picks_cartesian a _).1 ⟨i, hi, hxe.2⟩⟩
        · rintro ⟨hs, hms⟩
          obtain ⟨i, hi, hip⟩ := (picks_cartesian a _).2 hms
          refine ⟨Formula.And ((partitionSM els).1 ++ picksFrom i (partitionSM els).2),
            ?_, ?_⟩
          · simp only [List.mem_map, List.mem_range]
            exact ⟨i, hi, rfl⟩
          · simp only [evaluate]
            rw [evaluateAll_append, Bool.and_eq_true]
            exact ⟨hs, hip⟩

theorem simplify3_root (f g : Formula) (h : simplify3 f = some g) :
    rootPassThrough g = true := by
  cases f with
  | Atom c =>
      simp only [simplify3, Option.some.injEq] at h
      subst h; rfl
  | Not n =>
      simp only [simplify3, Option.some.injEq] at h
      subst h; rfl
  | Or v =>
      simp only [simplify3, Option.some.injEq] at h
      subst h; rfl
  | Implies l r => simp [simplify3] at h
  | Iff l r => simp [simplify3] at h
  | And v =>
      cases hv : simplify3List v with
      | none => rw [simplify3, hv] at h; simp at h
      | some els =>
          rw [simplify3, hv] at h
          simp only [Option.some.injEq] at h
          subst h; rfl

theorem rootPassThrough_simplify3 (g : Formula) (h : rootPassThrough g = true) :
    simplify3 g = some g := by
  cases g <;> simp [simplify3, rootPassThrough] at h ⊢

theorem cnfTopShape_of_root (g : Formula) (h : rootPassThrough g = true) :
    cnfTopShape g = true := by
  cases g <;> simp [cnfTopShape, rootPassThrough] at h ⊢

/-! ### The full pipeline -/

theorem simplify_total (f : Formula) :
    ∃ g, simplify f = some g ∧ isNNF g = true ∧ rootPassThrough g = true := by
  obtain ⟨g2, hg2, hg2n, _⟩ := (simplify2_main (simplify1 f)).1 (simplify1_noII f)
  obtain ⟨g3, hg3, hg3n, _⟩ := simplify3_main g2 hg2n
  exact ⟨g3, by simp [simplify, hg2, hg3], hg3n, simplify3_root g2 g3 hg3⟩

theorem partitionSM_no_or (els : List Formula)
    (h : ∀ e ∈ els, isOrNode e = false) : partitionSM els = (els, []) := by
  induction els with
  | nil => rfl
  | cons el rest ih =>
      have hr := ih (fun y hy => h y (by simp [hy]))
      cases el with
      | Or ov => have := h (.Or ov) (by simp); simp [isOrNode] at this
      | Atom c => simp [partitionSM, hr]
      | Not n => simp [partitionSM, hr]
      | Implies l r => simp [partitionSM, hr]
      | Iff l r => simp [partitionSM, hr]
      | And v => simp [partitionSM, hr]

theorem simplify3List_map_or (ms : List (List Formula)) :
    simplify3List (ms.map Formula.Or) = some (ms.map Formula.Or) := by
  induction ms with
  | nil => rfl
  | cons m rest ih => simp [simplify3List, simplify3, ih]

theorem partitionSM_map_or (ms : List (List Formula)) :
    partitionSM (ms.map Formula.Or) = ([], ms) := by
  induction ms with
  | nil => rfl
  | cons m rest ih => simp [partitionSM, ih]

theorem radixPick_cons (m : List Formula) (rest : List (List Formula)) (i j : Nat) :
    radixPick (m :: rest) i (j + 1) = radixPick rest (i / m.length) j := by
  simp [radixPick, List.take_succ_cons, Nat.div_div_eq_div_mul]

theorem picksFrom_radix (ms : List (List Formula)) (i : Nat) :
    picksFrom i ms = (List.range ms.length).map (radixPick ms i) := by
  induction ms generalizing i with
  | nil => simp [picksFrom]
  | cons m rest ih =>
      rw [List.length_cons, List.range_succ_eq_map]
      simp only [picksFrom, List.map_cons, List.map_map]
      congr 1
      · simp [radixPick]
      · rw [ih (i / m.length)]
        apply List.map_congr_left
        intro j _
        exact (radixPick_cons m rest i j).symm

/-! ### The overflow family: an And of 64 binary Ors -/

theorem overflow_prod : (overflowSets.map List.length).prod = 2 ^ 64 := by
  simp [overflowSets, List.map_replicate, List.prod_replicate]

theorem overflow_simplify3 :
    simplify3 (.And (overflowSets.map Formula.Or)) = some (.Or []) := by
  have h0 : (overflowSets.map List.length).prod % usizeSize = 0 := by
    rw [overflow_prod]
    simp [usizeSize]
  simp [simplify3, simplify3List_map_or, partitionSM_map_or, foldl_wrap_one, h0]

theorem overflow_isNNF : isNNF (.And (overflowSets.map Formula.Or)) = true := by
  simp only [isNNF]
  rw [isNNFList_iff]
  intro x hx
  simp only [overflowSets, List.mem_map] at hx
  obtain ⟨m, hm, rfl⟩ := hx
  rw [List.eq_of_mem_replicate hm]
  rfl

theorem overflow_eval :
    evaluate (fun _ => true) (.And (overflowSets.map Formula.Or)) = true := by
  simp only [evaluate]
  rw [evaluateAll_iff]
  intro x hx
  simp only [overflowSets, List.mem_map] at hx
  obtain ⟨m, hm, rfl⟩ := hx
  rw [List.eq_of_mem_replicate hm]
  rfl

theorem overflow_lit : ∀ m ∈ overflowSets, ∀ x ∈ m, isLit x = true := by
  intro m hm
  simp only [overflowSets] at hm
  rw [List.eq_of_mem_replicate hm]
  decide

/-! ### The claims -/

/-- Claim C1, counterexample: at an `And` of 64 binary `Or`s the `usize`
clause-count product wraps to 0, so the release pipeline returns the empty
disjunction `Or([])`, which evaluates to `false` under the all-true
assignment while the input evaluates to `true` (a debug build panics at
the same multiplication instead). -/
theorem simplify_overflow_not_preserving :
    simplify (.And (overflowSets.map Formula.Or)) = some (.Or []) ∧
    evaluate (fun _ => true) (Formula.Or []) = false ∧
    evaluate (fun _ => true) (.And (overflowSets.map Formula.Or)) = true := by
  refine ⟨?_, rfl, overflow_eval⟩
  show (simplify2 (simplify1 (.And (overflowSets.map Formula.Or)))).bind simplify3 =
    some (.Or [])
  rw [simplify1_id_of_noII _ (noII_of_isNNF _ overflow_isNNF),
    simplify2_id_of_isNNF _ overflow_isNNF]
  simp [overflow_simplify3]

/-- Claim C1, amended: whenever Pass 2 succeeds with an output on which
Pass 3's `usize` clause-count products stay below `2 ^ 64` (`wrapFree`),
the full pipeline returns a result whose value under every assignment
equals the value of the input; on overflow the wrapped count truncates the
clause list and preservation can fail. -/
theorem simplify_preserves_evaluate (f : Formula) (a : Char → Bool) (g2 : Formula)
    (h2 : simplify2 (simplify1 f) = some g2) (hw : wrapFree g2 = true) :
    ∃ g, simplify f = some g ∧ evaluate a g = evaluate a f := by
  obtain ⟨g2', hg2', hg2n, hg2e⟩ := (simplify2_main (simplify1 f)).1 (simplify1_noII f)
  rw [h2] at hg2'
  injection hg2' with hg2'
  subst hg2'
  obtain ⟨g3, hg3, _, hg3e⟩ := simplify3_main g2 hg2n
  refine ⟨g3, by simp [simplify, h2, hg3], ?_⟩
  rw [hg3e hw a, hg2e a, simplify1_eval a f]

/-- Witness for the amended C1 at the concrete input `Implies(P, Q)`. -/
theorem simplify_preserves_evaluate_witness :
    simplify2 (simplify1 (.Implies (.Atom 'P') (.Atom 'Q'))) =
      some (.Or [.Not (.Atom 'P'), .Atom 'Q']) ∧
    wrapFree (Formula.Or [.Not (.Atom 'P'), .Atom 'Q']) = true ∧
    (∃ g, simplify (.Implies (.Atom 'P') (.Atom 'Q')) = some g ∧
      evaluate (fun _ => true) g =
        evaluate (fun _ => true) (.Implies (.Atom 'P') (.Atom 'Q'))) :=
  have h2 : simplify2 (simplify1 (.Implies (.Atom 'P') (.Atom 'Q'))) =
      some (.Or [.Not (.Atom 'P'), .Atom 'Q']) := by
    simp [simplify1, simplify2, simplify2List]
  ⟨h2, rfl, simplify_preserves_evaluate _ _ _ h2 rfl⟩

/-- Claim C2: every result of the full pipeline contains no `Implies` or
`Iff` node, every `Not` in it directly wraps an `Atom`, and if its root is
an `And` then every child is a literal or an `Or` of literals (the last
condition holds vacuously: `simplify3` never returns an `And` root). -/
theorem simplify_output_shape (f g : Formula) (h : simplify f = some g) :
    noII g = true ∧ notsAtomic g = true ∧ cnfTopShape g = true := by
  obtain ⟨g', hg', hn, hroot⟩ := simplify_total f
  rw [hg'] at h
  injection h with h
  subst h
  exact ⟨noII_of_isNNF g' hn, notsAtomic_of_isNNF g' hn,
    cnfTopShape_of_root g' hroot⟩

/-- Witness for C2 at the concrete input `Implies(P, Q)`. -/
theorem simplify_output_shape_witness :
    simplify (.Implies (.Atom 'P') (.Atom 'Q')) =
      some (.Or [.Not (.Atom 'P'), .Atom 'Q']) ∧
    (noII (Formula.Or [.Not (.Atom 'P'), .Atom 'Q']) = true ∧
      notsAtomic (Formula.Or [.Not (.Atom 'P'), .Atom 'Q']) = true ∧
      cnfTopShape (Formula.Or [.Not (.Atom 'P'), .Atom 'Q']) = true) :=
  have h : simplify (.Implies (.Atom 'P') (.Atom 'Q')) =
      some (.Or [.Not (.Atom 'P'), .Atom 'Q']) := by
    simp [simplify, simplify1, simplify2, simplify2List, simplify3]
  ⟨h, simplify_output_shape _ _ h⟩

/-- Claim C3, counterexample: `Not(Implies(A, B))` contains an `Implies`
node, yet both `simplify2` and `simplify3` return it unchanged instead of
failing: the `g @ Formula::Not(_) => g` arm of `simplify2` and the
`g @ Formula::Not(_)` arm of `simplify3` pass it through silently. -/
theorem simplify23_silent_on_embedded_implies :
    noII (Formula.Not (.Implies (.Atom 'A') (.Atom 'B'))) = false ∧
    simplify2 (Formula.Not (.Implies (.Atom 'A') (.Atom 'B'))) =
      some (Formula.Not (.Implies (.Atom 'A') (.Atom 'B'))) ∧
    simplify3 (Formula.Not (.Implies (.Atom 'A') (.Atom 'B'))) =
      some (Formula.Not (.Implies (.Atom 'A') (.Atom 'B'))) :=
  ⟨rfl, by simp [simplify2], rfl⟩

/-- Claim C3, amended: Pass 2 and Pass 3 fail (model: return `none` for
the `unimplemented!()` panic) when the `Implies` or `Iff` node is at the
root of their input, not for every input merely containing one. -/
theorem simplify23_none_on_root_implies_iff (l r : Formula) :
    simplify2 (.Implies l r) = none ∧ simplify2 (.Iff l r) = none ∧
    simplify3 (.Implies l r) = none ∧ simplify3 (.Iff l r) = none := by
  refine ⟨?_, ?_, rfl, rfl⟩ <;> simp [simplify2]

/-- Claim C4, counterexample: for `And([P])` the recursively distributed
children `[P]` contain no `Or`, yet `simplify3` returns
`Or([And([P])])`, not the bare `And([P])` the claim promises. -/
theorem simplify3_no_multiples_still_wrapped :
    simplify3List [Formula.Atom 'P'] = some [Formula.Atom 'P'] ∧
    (∀ e ∈ [Formula.Atom 'P'], isOrNode e = false) ∧
    simplify3 (Formula.And [.Atom 'P']) = some (.Or [.And [.Atom 'P']]) ∧
    (Formula.Or [.And [.Atom 'P']]) ≠ (Formula.And [.Atom 'P']) := by
  refine ⟨rfl, by decide, rfl, ?_⟩
  intro h
  exact Formula.noConfusion h

/-- Claim C4, amended: when the distributed children of an `And` contain
no `Or` node, `simplify3` returns the conjunction of those children
wrapped in a singleton disjunction, `Or([And(singles)])`. -/
theorem simplify3_no_multiples_or_wrap (v els : List Formula)
    (h : simplify3List v = some els) (hno : ∀ e ∈ els, isOrNode e = false) :
    simplify3 (.And v) = some (.Or [.And els]) := by
  simp [simplify3, h, partitionSM_no_or els hno, picksFrom]

/-- Witness for the amended C4 at the concrete input `And([P])`. -/
theorem simplify3_no_multiples_or_wrap_witness :
    simplify3List [Formula.Atom 'P'] = some [Formula.Atom 'P'] ∧
    (∀ e ∈ [Formula.Atom 'P'], isOrNode e = false) ∧
    simplify3 (Formula.And [.Atom 'P']) = some (.Or [.And [.Atom 'P']]) :=
  ⟨rfl, by decide, simplify3_no_multiples_or_wrap _ _ rfl (by decide)⟩

/-- Claim C5, counterexample: `simplify3` returns an `Or` node unchanged
without recursing: on `Or([And([P, Or([Q, R])])])` it returns the input
itself, although distributing the single child would change it, so the
output is not the `Or` of the distributed children. -/
theorem simplify3_or_not_recursed :
    simplify3 (Formula.Or [Formula.And [.Atom 'P', .Or [.Atom 'Q', .Atom 'R']]]) =
      some (Formula.Or [Formula.And [.Atom 'P', .Or [.Atom 'Q', .Atom 'R']]]) ∧
    simplify3 (Formula.And [.Atom 'P', .Or [.Atom 'Q', .Atom 'R']]) =
      some (Formula.Or [Formula.And [.Atom 'P', .Atom 'Q'],
        Formula.And [.Atom 'P', .Atom 'R']]) ∧
    (Formula.Or [Formula.And [.Atom 'P', .Or [.Atom 'Q', .Atom 'R']]]) ≠
      (Formula.Or [Formula.Or [Formula.And [.Atom 'P', .Atom 'Q'],
        Formula.And [.Atom 'P', .Atom 'R']]]) := by
  refine ⟨rfl, rfl, ?_⟩
  intro h
  simp at h

/-- Claim C5, amended: `simplify3` returns every `Or` node unchanged; its
children are not recursively distributed, so an `And`-under-`Or` redex
inside a child survives. -/
theorem simplify3_or_unchanged (v : List Formula) :
    simplify3 (.Or v) = some (.Or v) := rfl

/-- Claim C6, counterexample: for the 64 binary choice sets the true
product of sizes is `2 ^ 64`, but the `usize` product wraps to 0, so
`simplify3` emits no clause at all instead of `2 ^ 64` of them. -/
theorem simplify3_product_overflow :
    (∀ m ∈ overflowSets, ∀ x ∈ m, isLit x = true) ∧
    simplify3 (.And (overflowSets.map Formula.Or)) = some (.Or []) ∧
    (overflowSets.map List.length).prod = 2 ^ 64 ∧
    ([] : List Formula).length ≠ 2 ^ 64 := by
  refine ⟨overflow_lit, overflow_simplify3, overflow_prod, ?_⟩
  norm_num

/-- Claim C6, amended: for an `And` whose children are exactly the `Or`
nodes of the choice lists in `ms` (each child of each a literal),
`simplify3` produces exactly `(∏ length) % 2 ^ 64` clauses — the
`usize`-wrapped product, equal to `∏ length` whenever that stays below
`2 ^ 64` — each a conjunction of `ms.length` picked sub-formulas. -/
theorem simplify3_product_count (ms : List (List Formula))
    (hlit : ∀ m ∈ ms, ∀ x ∈ m, isLit x = true) :
    ∃ disj, simplify3 (.And (ms.map Formula.Or)) = some (.Or disj) ∧
      disj.length = (ms.map List.length).prod % usizeSize ∧
      ∀ c ∈ disj, ∃ conj, c = Formula.And conj ∧ conj.length = ms.length := by
  refine ⟨(List.range ((ms.map List.length).prod % usizeSize)).map
    (fun i => Formula.And (picksFrom i ms)), ?_, ?_, ?_⟩
  · simp [simplify3, simplify3List_map_or, partitionSM_map_or, foldl_wrap_one]
  · simp
  · intro c hc
    simp only [List.mem_map, List.mem_range] at hc
    obtain ⟨i, _, rfl⟩ := hc
    exact ⟨picksFrom i ms, rfl, picksFrom_length ms i⟩

/-- Witness for C6 with two choice sets of sizes 2 and 1. -/
theorem simplify3_product_count_witness :
    (∀ m ∈ [[Formula.Atom 'P', Formula.Atom 'Q'], [Formula.Atom 'R']],
      ∀ x ∈ m, isLit x = true) ∧
    (∃ disj, simplify3 (.And (([[Formula.Atom 'P', Formula.Atom 'Q'],
        [Formula.Atom 'R']]).map Formula.Or)) = some (.Or disj) ∧
      disj.length = (([[Formula.Atom 'P', Formula.Atom 'Q'],
        [Formula.Atom 'R']]).map List.length).prod % usizeSize ∧
      ∀ c ∈ disj, ∃ conj, c = Formula.And conj ∧
        conj.length = ([[Formula.Atom 'P', Formula.Atom 'Q'],
          [Formula.Atom 'R']] : List (List Formula)).length) :=
  ⟨by decide, simplify3_product_count _ (by decide)⟩

/-- Claim C7, counterexample: the clause list the claim pins down ranges
over the unbounded product, which for the 64 binary choice sets has
`2 ^ 64` entries, while the program's `usize` product wraps to 0 and it
emits the empty clause list. -/
theorem simplify3_order_overflow :
    simplify3List (overflowSets.map Formula.Or) =
      some (overflowSets.map Formula.Or) ∧
    simplify3 (.And (overflowSets.map Formula.Or)) = some (.Or []) ∧
    ((List.range
        (((partitionSM (overflowSets.map Formula.Or)).2.map List.length).prod)).map
      (fun i => Formula.And ((partitionSM (overflowSets.map Formula.Or)).1 ++
        (List.range (partitionSM (overflowSets.map Formula.Or)).2.length).map
          (radixPick (partitionSM (overflowSets.map Formula.Or)).2 i)))).length =
      2 ^ 64 ∧
    ([] : List Formula).length ≠ 2 ^ 64 := by
  refine ⟨simplify3List_map_or _, overflow_simplify3, ?_, by norm_num⟩
  simp [partitionSM_map_or, overflow_prod]

/-- Claim C7, amended: the clause list an `And` node produces is exactly
`List.range ((∏ nⱼ) % 2 ^ 64)` — the `usize`-wrapped product, equal to
`∏ nⱼ` below the limit — mapped over the mixed-radix pick: clause `i`
takes, from multiple `j`, the child at index `(i / (n₀…n_(j-1))) % nⱼ` —
the first multiple varies fastest, deterministically. -/
theorem simplify3_mixed_radix_order (v els : List Formula)
    (h : simplify3List v = some els) :
    simplify3 (.And v) = some (.Or ((List.range
        ((((partitionSM els).2.map List.length).prod) % usizeSize)).map
      (fun i => Formula.And ((partitionSM els).1 ++
        (List.range (partitionSM els).2.length).map
          (radixPick (partitionSM els).2 i))))) := by
  simp [simplify3, h, foldl_wrap_one, ← picksFrom_radix]

/-- Witness for C7 at the concrete input `And([Or([P, Q])])`. -/
theorem simplify3_mixed_radix_order_witness :
    simplify3List [Formula.Or [.Atom 'P', .Atom 'Q']] =
      some [Formula.Or [.Atom 'P', .Atom 'Q']] ∧
    simplify3 (.And [Formula.Or [.Atom 'P', .Atom 'Q']]) = some (.Or ((List.range
        ((((partitionSM [Formula.Or [.Atom 'P', .Atom 'Q']]).2.map
          List.length).prod) % usizeSize)).map
      (fun i => Formula.And ((partitionSM [Formula.Or [.Atom 'P', .Atom 'Q']]).1 ++
        (List.range (partitionSM [Formula.Or [.Atom 'P', .Atom 'Q']]).2.length).map
          (radixPick (partitionSM [Formula.Or [.Atom 'P', .Atom 'Q']]).2 i))))) :=
  ⟨rfl, simplify3_mixed_radix_order _ _ rfl⟩

/-- Claim C8: Pass 1 rewrites `Iff(l, r)` to
`And(Or(Not(l'), r'), Or(Not(r'), l'))` with `l' = simplify1 l`,
`r' = simplify1 r`, the first conjunct built from structural deep copies
(`clone`) of the once-computed results, and `clone` reproduces them
exactly. -/
theorem simplify1_iff_elimination (l r : Formula) :
    simplify1 (.Iff l r) =
      .And [.Or [.Not (clone (simplify1 l)), clone (simplify1 r)],
        .Or [.Not (simplify1 r), simplify1 l]] ∧
    clone (simplify1 l) = simplify1 l ∧ clone (simplify1 r) = simplify1 r :=
  ⟨rfl, clone_eq _, clone_eq _⟩

/-- Claim C9: normalization is idempotent, in the strong, structural
sense: whatever `simplify` returns is returned again, unchanged, when
`simplify` is applied to it. -/
theorem simplify_idempotent (f g : Formula) (h : simplify f = some g) :
    simplify g = some g := by
  obtain ⟨g', hg', hn, hroot⟩ := simplify_total f
  rw [hg'] at h
  injection h with h
  subst h
  show (simplify2 (simplify1 g')).bind simplify3 = some g'
  rw [simplify1_id_of_noII g' (noII_of_isNNF g' hn),
    simplify2_id_of_isNNF g' hn]
  simp [rootPassThrough_simplify3 g' hroot]

/-- Witness for C9 at the concrete input `Not(Not(A))`. -/
theorem simplify_idempotent_witness :
    simplify (.Not (.Not (.Atom 'A'))) = some (.Atom 'A') ∧
    simplify (.Atom 'A') = some (.Atom 'A') :=
  have h : simplify (.Not (.Not (.Atom 'A'))) = some (.Atom 'A') := by
    simp [simplify, simplify1, simplify2, simplify3]
  ⟨h, simplify_idempotent _ _ h⟩

/-- Claim C10: Pass 3 maps the empty conjunction `And([])` to
`Or([And([])])`: a definite result whose root is an `Or` node holding the
empty conjunction. -/
theorem simplify3_empty_and : simplify3 (.And []) = some (.Or [.And []]) := rfl
